import Mathlib

/-!
Verification of the reconciliation core of `find_debtors.py`
(name normalization, invoice-number extraction, payment aggregation
and the debt reconciler with its unmatched-payment fallback).

Conventions of the embedding:
* Python strings are Lean `String`s; character-level work is done on
  `String.data : List Char`.  The names and descriptions in this program
  are ASCII, so `Char.isAlpha` / `Char.isDigit` / `Char.isWhitespace`
  and `Char.toLower` / `Char.toUpper` model Python's classification and
  case mapping on the inputs of interest.
* Monetary amounts are modelled as integers `ℤ`: the `summa` column is
  `INTEGER` in the database and a payment amount is a signed number; the
  claims below only add, subtract and compare amounts, so exact integer
  arithmetic captures them (none depends on fractional cents or on
  floating-point rounding).
* A Python function that can raise is modelled with `Option`
  (`none` = the call raises).
-/

/-- Python `str.strip()`: remove leading and trailing whitespace. -/
def pyStrip (s : List Char) : List Char :=
  ((s.dropWhile Char.isWhitespace).reverse.dropWhile Char.isWhitespace).reverse

/-- Helper for `pyTitle`: the boolean records whether the previous
character was alphabetic (Python: "cased"). -/
def pyTitleGo : Bool → List Char → List Char
  | _, [] => []
  | prevAlpha, c :: cs =>
    if c.isAlpha then
      (if prevAlpha then c.toLower else c.toUpper) :: pyTitleGo true cs
    else
      c :: pyTitleGo false cs

/-- Python `str.title()`: first letter of each run of letters uppercased,
the rest of the run lowercased, other characters unchanged. -/
def pyTitle (s : List Char) : List Char := pyTitleGo false s

/-- Python `str.split(sep)` for a one-character separator: split at every
occurrence of `sep`, keeping empty pieces. -/
def pySplit (sep : Char) : List Char → List (List Char)
  | [] => [[]]
  | c :: cs =>
    if c = sep then [] :: pySplit sep cs
    else
      match pySplit sep cs with
      | [] => [[c]]
      | r :: rs => (c :: r) :: rs

/-- Helper for `pySplitWs`: accumulates the current word (reversed). -/
def pyWordsGo : List Char → List Char → List (List Char)
  | acc, [] => if acc = [] then [] else [acc.reverse]
  | acc, c :: cs =>
    if c.isWhitespace then
      if acc = [] then pyWordsGo [] cs else acc.reverse :: pyWordsGo [] cs
    else
      pyWordsGo (c :: acc) cs

/-- Python `str.split()` with no argument: split on runs of whitespace,
discarding empty pieces. -/
def pySplitWs (s : List Char) : List (List Char) := pyWordsGo [] s

/-- Function `normalize_name` from `find_debtors.py`.

```python
def normalize_name(name):
    if ',' in name:
        lastname, firstname = name.split(',')
        normalized = f"{firstname.strip().title()} {lastname.strip().title()}"
        return {normalized}
    parts = name.split()
    if len(parts) == 2:
        return {f"{parts[0]} {parts[1]}", f"{parts[1]} {parts[0]}"}
    return {name}
```

The tuple unpacking `lastname, firstname = name.split(',')` raises
`ValueError` unless the split has exactly two parts, i.e. unless the
name contains exactly one comma; `none` models that exception. -/
def normalize_name (name : String) : Option (Finset String) :=
  if ',' ∈ name.data then
    match pySplit ',' name.data with
    | [lastname, firstname] =>
      some {String.mk (pyTitle (pyStrip firstname) ++ ' ' :: pyTitle (pyStrip lastname))}
    | _ => none
  else
    match pySplitWs name.data with
    | [p₁, p₂] => some {String.mk (p₁ ++ ' ' :: p₂), String.mk (p₂ ++ ' ' :: p₁)}
    | _ => some {name}

/-- Characters of the regex class `[.: ]` used by every labeled pattern
of `extract_invoice_number`. -/
def isSepChar (c : Char) : Bool := c = '.' || c = ':' || c = ' '

/-- Conversion `int(...)` on a nonempty string of decimal digits. -/
def digitsToNat (ds : List Char) : Nat :=
  ds.foldl (fun n c => n * 10 + (c.toNat - '0'.toNat)) 0

/-- Case-insensitive literal match at the head of `s`; on success returns
the remainder of `s` (models the literal part of a regex under
`re.IGNORECASE`). -/
def ciMatch : List Char → List Char → Option (List Char)
  | [], s => some s
  | _ :: _, [] => none
  | l :: ls, c :: cs => if l.toLower = c.toLower then ciMatch ls cs else none

/-- Model of `re.search(LIT + r'[.: ]*(\d+)', s, re.IGNORECASE)` followed by
`int(match.group(1))`, for the six labeled patterns of
`extract_invoice_number`.  `re.search` tries start positions left to
right; at a position where the literal matches, the greedy `[.: ]*`
consumes the maximal separator run and backtracking cannot help
(a separator character is never a digit), so the position succeeds
exactly when a digit follows that run, and `(\d+)` captures the maximal
digit run there. -/
def litScan (lit : List Char) : List Char → Option Nat
  | [] => none
  | c :: cs =>
    match ciMatch lit (c :: cs) with
    | some rest =>
      match (rest.dropWhile isSepChar).takeWhile Char.isDigit with
      | [] => litScan lit cs
      | d :: ds => some (digitsToNat (d :: ds))
    | none => litScan lit cs

/-- Model of `re.search(r'.*?(\d+).*', s)` followed by `int(match.group(1))`:
the leftmost feasible start position always captures the first digit
run of the string (the lazy `.*?` stops at the first digit reachable
without crossing a newline, and `re.search` slides the start position
past any newline), so the result is the maximal digit run starting at
the first digit of `s`. -/
def firstDigitScan : List Char → Option Nat
  | [] => none
  | c :: cs =>
    if c.isDigit then some (digitsToNat ((c :: cs).takeWhile Char.isDigit))
    else firstDigitScan cs

/-- Function `extract_invoice_number` from `find_debtors.py`: try the ordered
pattern list, returning the first capture converted to an integer.

```python
patterns = [r'Arve nr[.: ]*(\d+)', r'ARVE NR[.: ]*(\d+)',
            r'Arve number[.: ]*(\d+)', r'ARVE[.: ]*(\d+)',
            r'Arve[.: ]*(\d+)', r'Tasumine arve[.: ]*(\d+)',
            r'.*?(\d+).*']
for pattern in patterns:
    match = re.search(pattern, description, re.IGNORECASE)
    if match:
        return int(match.group(1))
return None
``` -/
def extract_invoice_number (description : String) : Option Nat :=
  litScan "Arve nr".data description.data <|>
  litScan "ARVE NR".data description.data <|>
  litScan "Arve number".data description.data <|>
  litScan "ARVE".data description.data <|>
  litScan "Arve".data description.data <|>
  litScan "Tasumine arve".data description.data <|>
  firstDigitScan description.data

/-- One row of the `arved` table (`parse_invoices.py` creates it with
`number INTEGER PRIMARY KEY, klient TEXT, kuupaev TEXT, tahtaeg TEXT,
summa INTEGER`); read-only input to `analyze_debts`. -/
structure InvoiceRecord where
  number : Nat
  klient : String
  kuupaev : String
  tahtaeg : String
  summa : ℤ
deriving DecidableEq

/-- One row of the payments table after the renaming in `load_payments`. -/
structure PaymentRecord where
  payer : String
  payment_date : String
  description : String
  amount : ℤ
deriving DecidableEq

/-- The dictionaries appended to `unmatched_payments`
(`{'name': payment['payer'], 'amount': ..., 'date': ...}`). -/
structure UnmatchedPayment where
  name : String
  amount : ℤ
  date : String
deriving DecidableEq

/-- The dictionaries appended to `debtors` in `analyze_debts`. -/
structure Debtor where
  client : String
  invoice_number : Nat
  invoice_date : String
  invoice_amount : ℤ
  paid_amount : ℤ
  debt : ℤ
deriving DecidableEq

/-- State built by the payment loop of `analyze_debts`.  The dict
`invoice_payments` is only ever read through `.get(key, 0)`, so it is
modelled by its lookup function with default `0`. -/
structure AggState where
  invoice_payments : String × Nat → ℤ
  unmatched_payments : List UnmatchedPayment

/-- The body of `for _, payment in payments_df.iterrows()` in
`analyze_debts` (lines 84-110).  `none` models the `ValueError` that
`normalize_name` raises on a payer name with two or more commas.

Python tests `if invoice_number:` — truthiness — so an extracted
number `0` takes the `else` branch and joins `unmatched_payments`.
In the credited branch the loop
`for name in possible_names: invoice_payments[key] += payment['amount']`
bumps each key `(name, n)` exactly once (set elements are distinct), so
the lookup function is updated pointwise; the `matched` flag is `True`
exactly when the variant set is nonempty. -/
def processPayment (st : AggState) (p : PaymentRecord) : Option AggState :=
  match normalize_name p.payer with
  | none => none
  | some possible_names =>
    match extract_invoice_number p.description with
    | some (n + 1) =>
      if possible_names.Nonempty then
        some ⟨fun k => if k.1 ∈ possible_names ∧ k.2 = n + 1 then
                st.invoice_payments k + p.amount
              else st.invoice_payments k,
              st.unmatched_payments⟩
      else
        some ⟨st.invoice_payments,
              st.unmatched_payments ++ [⟨p.payer, p.amount, p.payment_date⟩]⟩
    | some 0 =>
      some ⟨st.invoice_payments,
            st.unmatched_payments ++ [⟨p.payer, p.amount, p.payment_date⟩]⟩
    | none =>
      some ⟨st.invoice_payments,
            st.unmatched_payments ++ [⟨p.payer, p.amount, p.payment_date⟩]⟩

/-- The whole payment loop: `invoice_payments = {}`,
`unmatched_payments = []`, then one `processPayment` step per row. -/
def aggregate (payments : List PaymentRecord) : Option AggState :=
  payments.foldlM processPayment ⟨fun _ => 0, []⟩

/-- State threaded through the invoice loop of `analyze_debts`. -/
structure RecState where
  unmatched : List UnmatchedPayment
  debtors : List Debtor
deriving DecidableEq

/-- The scan `for payment in unmatched_payments: ...` (lines 123-128):
first entry whose variant set meets `invVars` and whose amount equals
`summa`.  `none` models the `ValueError` raised when the scan reaches an
entry whose stored name normalization fails before finding a match. -/
def scanUnmatched (invVars : Finset String) (summa : ℤ) :
    List UnmatchedPayment → Option (Option UnmatchedPayment)
  | [] => some none
  | p :: rest =>
    match normalize_name p.name with
    | none => none
    | some pv =>
      if 0 < (invVars ∩ pv).card ∧ p.amount = summa then some (some p)
      else scanUnmatched invVars summa rest

/-- The body of `for _, invoice in invoices_df.iterrows()` (lines
115-141).  `invoice_payments.get(key, 0)` is the application of the
lookup function `m`; `unmatched_payments.remove(mp)` removes the first
list element equal to `mp`, which is `List.erase`. -/
def processInvoice (m : String × Nat → ℤ) (st : RecState) (inv : InvoiceRecord) :
    Option RecState :=
  let paid := m (inv.klient, inv.number)
  if paid < inv.summa then
    match normalize_name inv.klient with
    | none => none
    | some invVars =>
      match scanUnmatched invVars inv.summa st.unmatched with
      | none => none
      | some (some mp) => some ⟨st.unmatched.erase mp, st.debtors⟩
      | some none =>
        some ⟨st.unmatched,
              st.debtors ++ [⟨inv.klient, inv.number, inv.kuupaev, inv.summa,
                              paid, inv.summa - paid⟩]⟩
  else some st

/-- The invoice loop of `analyze_debts`, started on the aggregated map,
the unmatched list and `debtors = []`. -/
def reconcile (invoices : List InvoiceRecord) (m : String × Nat → ℤ)
    (u : List UnmatchedPayment) : Option RecState :=
  invoices.foldlM (processInvoice m) ⟨u, []⟩

/-- Function `analyze_debts` with the two loads replaced by its in-memory inputs:
run the payment loop, then the invoice loop, and return `debtors`. -/
def analyze_debts (invoices : List InvoiceRecord) (payments : List PaymentRecord) :
    Option (List Debtor) :=
  match aggregate payments with
  | none => none
  | some st => (reconcile invoices st.invoice_payments st.unmatched_payments).map
      (fun r => r.debtors)

/-!
Specification-side definitions, transcribed from the wording of the
DebtReconciler description (spec §4.1 and §4.4) for the refinement
theorem about the reconciler.  They are total: the spec's normalizer
"splits on the first comma", so it has no failure case.
-/

/-- The spec's name normalizer (§4.1 wording): on a comma, split at the
*first* comma — everything before it is the last name, everything after
it (commas included) the first name — trim and title-case both halves;
otherwise as the code: two whitespace tokens give both orderings, any
other shape gives the name itself. -/
def specNormalize (name : String) : Finset String :=
  if ',' ∈ name.data then
    match pySplit ',' name.data with
    | [] => {name}
    | lastname :: rest =>
      {String.mk (pyTitle (pyStrip (List.intercalate [','] rest))
        ++ ' ' :: pyTitle (pyStrip lastname))}
  else
    match pySplitWs name.data with
    | [p₁, p₂] => {String.mk (p₁ ++ ' ' :: p₂), String.mk (p₂ ++ ' ' :: p₁)}
    | _ => {name}

/-- The spec's fallback scan: the first unmatched entry whose normalized
name-variant set intersects the invoice's and whose amount equals the
invoice amount. -/
def specScan (invVars : Finset String) (summa : ℤ) :
    List UnmatchedPayment → Option UnmatchedPayment
  | [] => none
  | p :: rest =>
    if (invVars ∩ specNormalize p.name).Nonempty ∧ p.amount = summa then some p
    else specScan invVars summa rest

/-- The spec's per-invoice step: look up paid under the raw
(client, number) key with default 0; if paid ≥ amount, skip; otherwise
consume the first matching unmatched entry, or emit a debtor with
debt = amount − paid. -/
def specStep (m : String × Nat → ℤ) (st : List UnmatchedPayment × List Debtor)
    (inv : InvoiceRecord) : List UnmatchedPayment × List Debtor :=
  let paid := m (inv.klient, inv.number)
  if inv.summa ≤ paid then st
  else
    match specScan (specNormalize inv.klient) inv.summa st.1 with
    | some mp => (st.1.erase mp, st.2)
    | none => (st.1, st.2 ++ [⟨inv.klient, inv.number, inv.kuupaev, inv.summa,
        paid, inv.summa - paid⟩])

/-- The spec's reconciler: the per-invoice step folded over the invoice
sequence in input order. -/
def reconcileSpec (invoices : List InvoiceRecord) (m : String × Nat → ℤ)
    (u : List UnmatchedPayment) : List UnmatchedPayment × List Debtor :=
  invoices.foldl (specStep m) (u, [])

/-! ### Helper lemmas about the Python string primitives -/

theorem pySplit_ne_nil (sep : Char) (l : List Char) : pySplit sep l ≠ [] := by
  induction l with
  | nil => simp [pySplit]
  | cons c cs ih =>
    by_cases h : c = sep
    · simp [pySplit, h]
    · simp only [pySplit, if_neg h]
      cases hs : pySplit sep cs with
      | nil => simp
      | cons r rs => simp

theorem pySplit_of_not_mem {sep : Char} {l : List Char} (h : sep ∉ l) :
    pySplit sep l = [l] := by
  induction l with
  | nil => rfl
  | cons c cs ih =>
    simp only [List.mem_cons, not_or] at h
    have hne : c ≠ sep := fun hc => h.1 hc.symm
    simp only [pySplit, if_neg hne, ih h.2]

theorem pySplit_append {sep : Char} {a : List Char} (b : List Char) (h : sep ∉ a) :
    pySplit sep (a ++ sep :: b) = a :: pySplit sep b := by
  induction a with
  | nil => simp [pySplit]
  | cons c cs ih =>
    simp only [List.mem_cons, not_or] at h
    have hne : c ≠ sep := fun hc => h.1 hc.symm
    show pySplit sep (c :: (cs ++ sep :: b)) = _
    simp only [pySplit, if_neg hne, ih h.2]

theorem pySplit_length (sep : Char) (l : List Char) :
    (pySplit sep l).length = l.count sep + 1 := by
  induction l with
  | nil => simp [pySplit]
  | cons c cs ih =>
    by_cases h : c = sep
    · subst h
      simp [pySplit, ih, List.count_cons]
    · simp only [pySplit, if_neg h]
      cases hs : pySplit sep cs with
      | nil => exact absurd hs (pySplit_ne_nil sep cs)
      | cons r rs =>
        rw [hs] at ih
        simp only [List.length_cons] at ih ⊢
        rw [List.count_cons]
        simp [h, ih]

theorem pyWordsGo_no_ws :
    ∀ (l acc : List Char), (∀ c ∈ acc, c.isWhitespace = false) →
      ∀ w ∈ pyWordsGo acc l, ∀ c ∈ w, c.isWhitespace = false := by
  intro l
  induction l with
  | nil =>
    intro acc hacc w hw
    by_cases h : acc = []
    · simp [pyWordsGo, h] at hw
    · simp only [pyWordsGo, if_neg h, List.mem_singleton] at hw
      subst hw
      intro c hc
      exact hacc c (List.mem_reverse.mp hc)
  | cons c cs ih =>
    intro acc hacc w hw
    by_cases hws : c.isWhitespace
    · by_cases h : acc = []
      · simp only [pyWordsGo, hws, if_pos h, if_true] at hw
        exact ih [] (by simp) w hw
      · simp only [pyWordsGo, hws, if_neg h, if_true, List.mem_cons] at hw
        rcases hw with hw | hw
        · subst hw
          intro x hx
          exact hacc x (List.mem_reverse.mp hx)
        · exact ih [] (by simp) w hw
    · simp only [pyWordsGo, hws, if_false, Bool.false_eq_true] at hw
      refine ih (c :: acc) ?_ w hw
      intro x hx
      rcases List.mem_cons.mp hx with hx | hx
      · subst hx
        simpa using hws
      · exact hacc x hx

theorem pySplitWs_no_ws {l : List Char} :
    ∀ w ∈ pySplitWs l, ∀ c ∈ w, c.isWhitespace = false :=
  pyWordsGo_no_ws l [] (by simp)

/-- If the two whitespace-free words commute around a space, they are
equal. -/
theorem eq_of_append_space_eq {t₁ t₂ : List Char}
    (h1 : ∀ c ∈ t₁, c.isWhitespace = false) (h2 : ∀ c ∈ t₂, c.isWhitespace = false)
    (h : t₁ ++ ' ' :: t₂ = t₂ ++ ' ' :: t₁) : t₁ = t₂ := by
  rcases List.append_eq_append_iff.mp h with ⟨a, ha₁, ha₂⟩ | ⟨a, ha₁, ha₂⟩
  · cases a with
    | nil => simpa using ha₁.symm
    | cons x xs =>
      exfalso
      rw [List.cons_append] at ha₂
      injection ha₂ with hx _
      have hmem : x ∈ t₂ := by
        rw [ha₁]
        exact List.mem_append_right _ (List.mem_cons_self x xs)
      have := h2 x hmem
      rw [← hx] at this
      simp at this
  · cases a with
    | nil => simpa using ha₁
    | cons x xs =>
      exfalso
      rw [List.cons_append] at ha₂
      injection ha₂ with hx _
      have hmem : x ∈ t₁ := by
        rw [ha₁]
        exact List.mem_append_right _ (List.mem_cons_self x xs)
      have := h1 x hmem
      rw [← hx] at this
      simp at this

/-- Function `normalize_name` never returns an empty variant set. -/
theorem normalize_nonempty {s : String} {v : Finset String}
    (h : normalize_name s = some v) : v.Nonempty := by
  unfold normalize_name at h
  by_cases hc : ',' ∈ s.data
  · rw [if_pos hc] at h
    rcases hs : pySplit ',' s.data with _ | ⟨l₁, _ | ⟨l₂, _ | _⟩⟩ <;> rw [hs] at h
    · exact absurd h (by simp)
    · exact absurd h (by simp)
    · obtain rfl := Option.some.inj h
      exact Finset.singleton_nonempty _
    · exact absurd h (by simp)
  · rw [if_neg hc] at h
    rcases hs : pySplitWs s.data with _ | ⟨t₁, _ | ⟨t₂, _ | _⟩⟩ <;> rw [hs] at h <;>
      obtain rfl := Option.some.inj h
    · exact Finset.singleton_nonempty _
    · exact Finset.singleton_nonempty _
    · exact Finset.insert_nonempty _ _
    · exact Finset.singleton_nonempty _

example : extract_invoice_number "Arve nr: 1023" = some 1023 := by decide
example : extract_invoice_number "Tasumine arve 55" = some 55 := by decide
example : extract_invoice_number "no digits here" = none := by decide
example : extract_invoice_number "ref 7A9" = some 7 := by decide
example : normalize_name "DOE, jane" = some {"Jane Doe"} := by decide
example : normalize_name "Jane Doe" = some {"Jane Doe", "Doe Jane"} := by decide
example : normalize_name "a,b,c" = none := by decide
example : normalize_name "Ann Ann" = some {"Ann Ann"} := by decide

-- the two end-to-end scenarios of spec §8
example :
    analyze_debts [⟨10, "Mart Tamm", "d1", "d2", 100⟩]
      [⟨"Tamm Mart", "p1", "Arve nr 10", 60⟩]
      = some [⟨"Mart Tamm", 10, "d1", 100, 60, 40⟩] := by decide

example :
    analyze_debts [⟨11, "Mari Maasikas", "d1", "d2", 50⟩]
      [⟨"Maasikas Mari", "p1", "thanks", 50⟩]
      = some [] := by decide

/-! ### Claims C5, C6, C7 — `normalize_name` -/

/-- C5 counterexample: the claim says every name containing a comma is
split at the first comma into one title-cased variant, but on a name
with two commas the unpacking `lastname, firstname = name.split(',')`
raises `ValueError` (modelled by `none`): no variant set is returned. -/
theorem normalize_name_two_commas_raises : normalize_name "a,b,c" = none := by decide

/-- C5 (amended): for every name containing exactly one comma — written
`a ++ "," ++ b` with comma-free halves — `normalize_name` splits at that
comma, trims and title-cases both parts, and returns exactly one variant
"Firstname Lastname", regardless of input case; in particular
`normalize_name "DOE, jane" = {"Jane Doe"}`. -/
theorem normalize_name_one_comma :
    (∀ (a b : String), ',' ∉ a.data → ',' ∉ b.data →
      normalize_name (a ++ "," ++ b)
        = some {String.mk (pyTitle (pyStrip b.data) ++ ' ' :: pyTitle (pyStrip a.data))})
    ∧ normalize_name "DOE, jane" = some {"Jane Doe"} := by
  constructor
  · intro a b ha hb
    have hdata : (a ++ "," ++ b).data = a.data ++ ',' :: b.data := by
      simp [String.data_append]
    have hm : ',' ∈ (a ++ "," ++ b).data := by
      rw [hdata]
      exact List.mem_append_right _ (List.mem_cons_self _ _)
    unfold normalize_name
    rw [if_pos hm, hdata, pySplit_append b.data ha, pySplit_of_not_mem hb]
  · decide

/-- C5 witness: the general part of `normalize_name_one_comma` applied
at `a = "DOE"`, `b = " jane"`. -/
theorem normalize_name_one_comma_witness :
    normalize_name ("DOE" ++ "," ++ " jane")
      = some {String.mk (pyTitle (pyStrip " jane".data) ++ ' ' :: pyTitle (pyStrip "DOE".data))} :=
  normalize_name_one_comma.1 "DOE" " jane" (by decide) (by decide)

/-- C6 counterexample: the claim says `normalize` completes without any
error condition on every input, but on a payer name with two or more
commas the tuple unpacking raises `ValueError` (modelled by `none`). -/
theorem normalize_name_not_total : normalize_name "x,y,z" = none := by decide

/-- C6 (amended): `normalize_name` completes exactly on the inputs whose
comma count is at most one, and whenever it completes it returns a
non-empty variant set.  (As a Lean function of its input it is
deterministic and side-effect-free by construction.) -/
theorem normalize_name_total_iff :
    ∀ s : String, ((normalize_name s).isSome ↔ s.data.count ',' ≤ 1)
      ∧ ∀ v, normalize_name s = some v → v.Nonempty := by
  intro s
  refine ⟨?_, fun v h => normalize_nonempty h⟩
  have hlen := pySplit_length ',' s.data
  by_cases hc : ',' ∈ s.data
  · unfold normalize_name
    rw [if_pos hc]
    rcases hs : pySplit ',' s.data with _ | ⟨l₁, _ | ⟨l₂, _ | ⟨l₃, rest⟩⟩⟩
    · exact absurd hs (pySplit_ne_nil ',' s.data)
    · rw [hs] at hlen
      simp only [List.length_singleton] at hlen
      have : s.data.count ',' = 0 := by omega
      rw [List.count_eq_zero] at this
      exact absurd hc this
    · rw [hs] at hlen
      simp only [List.length_cons, List.length_nil] at hlen
      simp only [Option.isSome_some, true_iff]
      omega
    · rw [hs] at hlen
      simp only [List.length_cons] at hlen
      simp only [Option.isSome_none, Bool.false_eq_true, false_iff]
      omega
  · have hz : s.data.count ',' = 0 := List.count_eq_zero.mpr hc
    unfold normalize_name
    rw [if_neg hc]
    rcases hs : pySplitWs s.data with _ | ⟨t₁, _ | ⟨t₂, _ | _⟩⟩ <;> simp [hz]

/-- C6 witness: `normalize_name_total_iff` at `s = "Jane Doe"`, with the
non-emptiness hypothesis discharged on the computed variant set. -/
theorem normalize_name_total_iff_witness :
    ({"Jane Doe", "Doe Jane"} : Finset String).Nonempty :=
  (normalize_name_total_iff "Jane Doe").2 {"Jane Doe", "Doe Jane"} (by decide)

/-- C7 counterexample: the claim says every comma-less two-token name
yields a variant set of exactly two elements, but when the two tokens
are equal the two orderings coincide and the set is a singleton. -/
theorem normalize_name_equal_tokens :
    normalize_name "Ann Ann" = some {"Ann Ann"}
    ∧ (normalize_name "Ann Ann").map Finset.card = some 1 := by decide

/-- C7 (amended): for every comma-less name splitting on whitespace into
exactly two tokens, `normalize_name` returns exactly the set of the two
orderings "Token1 Token2" and "Token2 Token1"; that set has exactly two
elements whenever the two tokens differ; in particular
`normalize_name "Jane Doe" = {"Jane Doe", "Doe Jane"}`. -/
theorem normalize_name_two_tokens :
    (∀ (s : String) (t₁ t₂ : List Char), ',' ∉ s.data → pySplitWs s.data = [t₁, t₂] →
      normalize_name s = some {String.mk (t₁ ++ ' ' :: t₂), String.mk (t₂ ++ ' ' :: t₁)}
      ∧ (t₁ ≠ t₂ →
        ({String.mk (t₁ ++ ' ' :: t₂), String.mk (t₂ ++ ' ' :: t₁)} : Finset String).card = 2))
    ∧ normalize_name "Jane Doe" = some {"Jane Doe", "Doe Jane"} := by
  constructor
  · intro s t₁ t₂ hc hw
    constructor
    · unfold normalize_name
      rw [if_neg hc, hw]
    · intro hne
      have h₁ : ∀ c ∈ t₁, c.isWhitespace = false := by
        intro c hcm
        exact pySplitWs_no_ws t₁ (by rw [hw]; simp) c hcm
      have h₂ : ∀ c ∈ t₂, c.isWhitespace = false := by
        intro c hcm
        exact pySplitWs_no_ws t₂ (by rw [hw]; simp) c hcm
      have hstr : String.mk (t₁ ++ ' ' :: t₂) ≠ String.mk (t₂ ++ ' ' :: t₁) := by
        intro he
        exact hne (eq_of_append_space_eq h₁ h₂ (congrArg String.data he))
      rw [Finset.card_insert_of_not_mem (by simpa using hstr), Finset.card_singleton]
  · decide

/-- C7 witness: `normalize_name_two_tokens` at `s = "Jane Doe"`, with
both hypotheses and the token-distinctness discharged concretely. -/
theorem normalize_name_two_tokens_witness :
    ({String.mk ("Jane".data ++ ' ' :: "Doe".data),
      String.mk ("Doe".data ++ ' ' :: "Jane".data)} : Finset String).card = 2 :=
  (normalize_name_two_tokens.1 "Jane Doe" "Jane".data "Doe".data
    (by decide) (by decide)).2 (by decide)

/-! ### Claim C4 — `extract_invoice_number` -/

theorem ciMatch_subset :
    ∀ {lit s rest : List Char}, ciMatch lit s = some rest → ∀ c ∈ rest, c ∈ s := by
  intro lit
  induction lit with
  | nil =>
    intro s rest h c hc
    simp only [ciMatch, Option.some.injEq] at h
    exact h ▸ hc
  | cons l ls ih =>
    intro s rest h c hc
    cases s with
    | nil => simp [ciMatch] at h
    | cons x xs =>
      simp only [ciMatch] at h
      by_cases he : l.toLower = x.toLower
      · rw [if_pos he] at h
        exact List.mem_cons_of_mem x (ih h c hc)
      · rw [if_neg he] at h
        exact absurd h (by simp)

theorem takeWhile_eq_nil_of_no_sat {p : Char → Bool} {l : List Char}
    (h : ∀ c ∈ l, p c = false) : l.takeWhile p = [] := by
  cases l with
  | nil => rfl
  | cons x xs => simp [List.takeWhile_cons, h x (List.mem_cons_self x xs)]

theorem litScan_eq_none_of_no_digit {lit : List Char} :
    ∀ {s : List Char}, (∀ c ∈ s, c.isDigit = false) → litScan lit s = none := by
  intro s
  induction s with
  | nil => intro _; rfl
  | cons c cs ih =>
    intro h
    have htail : ∀ x ∈ cs, x.isDigit = false :=
      fun x hx => h x (List.mem_cons_of_mem c hx)
    cases hm : ciMatch lit (c :: cs) with
    | none => simp only [litScan, hm]; exact ih htail
    | some rest =>
      have hrest : ∀ x ∈ rest.dropWhile isSepChar, x.isDigit = false := by
        intro x hx
        exact h x (ciMatch_subset hm x ((List.dropWhile_sublist _).subset hx))
      simp only [litScan, hm, takeWhile_eq_nil_of_no_sat hrest]
      exact ih htail

theorem firstDigitScan_eq_none_iff :
    ∀ {s : List Char}, firstDigitScan s = none ↔ ∀ c ∈ s, c.isDigit = false := by
  intro s
  induction s with
  | nil => simp [firstDigitScan]
  | cons c cs ih =>
    by_cases hd : c.isDigit
    · simp [firstDigitScan, hd]
    · simp only [firstDigitScan, hd, if_false, Bool.false_eq_true, ih, List.mem_cons]
      constructor
      · intro h x hx
        rcases hx with rfl | hx
        · simpa using hd
        · exact h x hx
      · intro h x hx
        exact h x (Or.inr hx)

theorem option_orElse_eq_none {α : Type} {x y : Option α} (h : (x <|> y) = none) :
    x = none ∧ y = none := by
  cases x with
  | none => exact ⟨rfl, by simpa using h⟩
  | some a => simp [Option.orElse] at h

/-- C4: `extract_invoice_number` returns `none` if and only if the
description contains no digit at all; on the spec's examples it returns
the stated values, the last one through the catch-all pattern picking
the first digit run. -/
theorem extract_invoice_number_spec :
    (∀ s : String,
      extract_invoice_number s = none ↔ ∀ c ∈ s.data, c.isDigit = false)
    ∧ extract_invoice_number "Arve nr: 1023" = some 1023
    ∧ extract_invoice_number "Tasumine arve 55" = some 55
    ∧ extract_invoice_number "no digits here" = none
    ∧ extract_invoice_number "ref 7A9" = some 7 := by
  refine ⟨?_, by decide, by decide, by decide, by decide⟩
  intro s
  constructor
  · intro h
    unfold extract_invoice_number at h
    obtain ⟨-, h⟩ := option_orElse_eq_none h
    obtain ⟨-, h⟩ := option_orElse_eq_none h
    obtain ⟨-, h⟩ := option_orElse_eq_none h
    obtain ⟨-, h⟩ := option_orElse_eq_none h
    obtain ⟨-, h⟩ := option_orElse_eq_none h
    obtain ⟨-, h⟩ := option_orElse_eq_none h
    exact firstDigitScan_eq_none_iff.mp h
  · intro h
    unfold extract_invoice_number
    rw [litScan_eq_none_of_no_digit h, litScan_eq_none_of_no_digit h,
        litScan_eq_none_of_no_digit h, litScan_eq_none_of_no_digit h,
        litScan_eq_none_of_no_digit h, litScan_eq_none_of_no_digit h,
        firstDigitScan_eq_none_iff.mpr h]
    rfl

/-- C4 witness: the characterization applied at a concrete digit-free
description. -/
theorem extract_invoice_number_spec_witness :
    extract_invoice_number "Makse aitah" = none :=
  (extract_invoice_number_spec.1 "Makse aitah").mpr (by decide)

/-! ### Claims C2, C3 — payment aggregation -/

/-- C2 counterexample: the description "Arve nr 0" yields the invoice
number 0, yet the payment is credited to no key at all — Python's
`if invoice_number:` is false for 0 — and instead joins the unmatched
list; the claim requires both variant keys to be incremented. -/
theorem aggregator_zero_number_not_credited :
    extract_invoice_number "Arve nr 0" = some 0
    ∧ (aggregate [⟨"Jane Doe", "2024-01-01", "Arve nr 0", 100⟩]).map
        (fun st => (st.invoice_payments ("Jane Doe", 0),
                    st.invoice_payments ("Doe Jane", 0),
                    st.unmatched_payments))
        = some (0, 0, [⟨"Jane Doe", 100, "2024-01-01"⟩]) := by decide

/-- C2 (amended): for every payment whose description yields a *nonzero*
invoice number, the aggregator adds the full (undivided) payment amount
into the running total of every key (variant, number), one key per
variant of the payer's name-variant set; in particular a payment of 100
from "Jane Doe" referencing invoice 5 increments both keys
("Jane Doe",5) and ("Doe Jane",5) by 100. -/
theorem aggregator_credits_all_variants :
    (∀ (st : AggState) (p : PaymentRecord) (vars : Finset String) (n : Nat),
      normalize_name p.payer = some vars →
      extract_invoice_number p.description = some n → n ≠ 0 →
      processPayment st p = some ⟨fun k =>
          if k.1 ∈ vars ∧ k.2 = n then st.invoice_payments k + p.amount
          else st.invoice_payments k,
        st.unmatched_payments⟩)
    ∧ (aggregate [⟨"Jane Doe", "2024-01-01", "Arve nr 5", 100⟩]).map
        (fun st => (st.invoice_payments ("Jane Doe", 5),
                    st.invoice_payments ("Doe Jane", 5),
                    st.unmatched_payments))
        = some (100, 100, []) := by
  constructor
  · intro st p vars n hn hx hnz
    obtain ⟨m, rfl⟩ : ∃ m, n = m + 1 := ⟨n - 1, by omega⟩
    simp only [processPayment, hn, hx]
    rw [if_pos (normalize_nonempty hn)]
  · decide

/-- C2 witness: the general part of `aggregator_credits_all_variants`
applied to the empty state and the claim's own example payment. -/
theorem aggregator_credits_all_variants_witness :
    processPayment ⟨fun _ => 0, []⟩ ⟨"Jane Doe", "2024-01-01", "Arve nr 5", 100⟩
      = some ⟨fun k =>
          if k.1 ∈ ({"Jane Doe", "Doe Jane"} : Finset String) ∧ k.2 = 5 then
            (fun _ => (0 : ℤ)) k + (100 : ℤ)
          else (fun _ => (0 : ℤ)) k,
        []⟩ :=
  aggregator_credits_all_variants.1 ⟨fun _ => 0, []⟩
    ⟨"Jane Doe", "2024-01-01", "Arve nr 5", 100⟩ {"Jane Doe", "Doe Jane"} 5
    (by decide) (by decide) (by decide)

/-- C3 counterexample: the description "0" makes `ReferenceExtractor`
return the number 0 — not none — yet the payment is appended to the
unmatched list, so "appended exactly when the extractor returns none"
fails. -/
theorem aggregator_unmatched_despite_number :
    extract_invoice_number "0" = some 0
    ∧ (aggregate [⟨"Jane Doe", "2024-01-02", "0", 25⟩]).map
        (fun st => st.unmatched_payments)
        = some [⟨"Jane Doe", 25, "2024-01-02"⟩] := by decide

/-- C3 (amended): for every payment (with a normalizable payer name) the
aggregator appends an UnmatchedPayment carrying the original raw payer
name, the amount and the date exactly when `extract_invoice_number`
returns none *or 0* (Python truthiness of `if invoice_number:`); a
payment yielding a nonzero number is credited to its keys and never
appended to the unmatched list. -/
theorem aggregator_unmatched_iff :
    ∀ (st : AggState) (p : PaymentRecord) (vars : Finset String),
      normalize_name p.payer = some vars →
      ((extract_invoice_number p.description = none ∨
        extract_invoice_number p.description = some 0) →
        processPayment st p = some ⟨st.invoice_payments,
          st.unmatched_payments ++ [⟨p.payer, p.amount, p.payment_date⟩]⟩)
      ∧ (∀ n, extract_invoice_number p.description = some n → n ≠ 0 →
          ∃ f, processPayment st p = some ⟨f, st.unmatched_payments⟩) := by
  intro st p vars hn
  constructor
  · rintro (hx | hx) <;> simp [processPayment, hn, hx]
  · intro n hx hnz
    obtain ⟨m, rfl⟩ : ∃ m, n = m + 1 := ⟨n - 1, by omega⟩
    refine ⟨fun k => if k.1 ∈ vars ∧ k.2 = m + 1 then
      st.invoice_payments k + p.amount else st.invoice_payments k, ?_⟩
    simp only [processPayment, hn, hx]
    rw [if_pos (normalize_nonempty hn)]

/-- C3 witness: `aggregator_unmatched_iff` applied to a digit-free
description, with both hypotheses discharged concretely. -/
theorem aggregator_unmatched_iff_witness :
    processPayment ⟨fun _ => 0, []⟩ ⟨"Jane Doe", "2024-01-02", "thanks", 25⟩
      = some ⟨fun _ => (0 : ℤ), [⟨"Jane Doe", 25, "2024-01-02"⟩]⟩ :=
  (aggregator_unmatched_iff ⟨fun _ => 0, []⟩
    ⟨"Jane Doe", "2024-01-02", "thanks", 25⟩ {"Jane Doe", "Doe Jane"}
    (by decide)).1 (Or.inl (by decide))

/-! ### Claims C9, C10 — global properties of the reconciler -/

/-- C9: reconciliation is deterministic.  The embedded pipeline is a
pure function of the invoice and payment sequences, so any two runs on
the same inputs return the same debtor list, equal element by element
in order and values. -/
theorem analyze_debts_deterministic :
    ∀ (invoices : List InvoiceRecord) (payments : List PaymentRecord)
      (d₁ d₂ : List Debtor),
      analyze_debts invoices payments = some d₁ →
      analyze_debts invoices payments = some d₂ → d₁ = d₂ := by
  intro invs pays d₁ d₂ h₁ h₂
  rw [h₁] at h₂
  exact Option.some.inj h₂

/-- C9 witness: two runs on the §8 end-to-end scenario. -/
theorem analyze_debts_deterministic_witness :
    ([⟨"Mart Tamm", 10, "d1", 100, 60, 40⟩] : List Debtor)
      = [⟨"Mart Tamm", 10, "d1", 100, 60, 40⟩] :=
  analyze_debts_deterministic [⟨10, "Mart Tamm", "d1", "d2", 100⟩]
    [⟨"Tamm Mart", "p1", "Arve nr 10", 60⟩] _ _ (by decide) (by decide)

/-- An invariant that every step of an `Option`-valued fold preserves
holds at the end of the fold. -/
theorem foldlM_option_inv {α σ : Type} {f : σ → α → Option σ} {P : σ → Prop}
    (hf : ∀ s a s', f s a = some s' → P s → P s') :
    ∀ {l : List α} {s s' : σ}, List.foldlM f s l = some s' → P s → P s' := by
  intro l
  induction l with
  | nil =>
    intro s s' h hp
    simp only [List.foldlM_nil, Option.pure_def, Option.some.injEq] at h
    exact h ▸ hp
  | cons a as ih =>
    intro s s' h hp
    rw [List.foldlM_cons] at h
    cases hfa : f s a with
    | none => rw [hfa] at h; simp at h
    | some s₁ =>
      rw [hfa] at h
      simp only [Option.bind_eq_bind, Option.some_bind] at h
      exact ih h (hf s a s₁ hfa hp)

/-- Each invoice step preserves "every debtor so far is underpaid with
debt = invoice amount − paid amount > 0". -/
theorem processInvoice_preserves_pos (m : String × Nat → ℤ) :
    ∀ (s : RecState) (inv : InvoiceRecord) (s' : RecState),
      processInvoice m s inv = some s' →
      (∀ d ∈ s.debtors, d.paid_amount < d.invoice_amount ∧ 0 < d.debt
        ∧ d.debt = d.invoice_amount - d.paid_amount) →
      ∀ d ∈ s'.debtors, d.paid_amount < d.invoice_amount ∧ 0 < d.debt
        ∧ d.debt = d.invoice_amount - d.paid_amount := by
  intro s inv s' hstep hp
  simp only [processInvoice] at hstep
  split at hstep
  · split at hstep
    · exact absurd hstep (by simp)
    · split at hstep
      · exact absurd hstep (by simp)
      · obtain rfl := Option.some.inj hstep
        exact hp
      · obtain rfl := Option.some.inj hstep
        intro d hd
        rcases List.mem_append.mp hd with hd | hd
        · exact hp d hd
        · obtain rfl := List.mem_singleton.mp hd
          have hlt : m (inv.klient, inv.number) < inv.summa := by assumption
          exact ⟨hlt, sub_pos.mpr hlt, rfl⟩
  · obtain rfl := Option.some.inj hstep
    exact hp

/-- C10: every Debtor record in the reconciler's output has
`paid_amount` strictly below `invoice_amount`, and its `debt` equals
`invoice_amount - paid_amount` and is strictly positive — no zero-debt
or overpaid entry is ever emitted. -/
theorem reconcile_debt_pos :
    ∀ (invoices : List InvoiceRecord) (m : String × Nat → ℤ)
      (u : List UnmatchedPayment) (st : RecState),
      reconcile invoices m u = some st →
      ∀ d ∈ st.debtors, d.paid_amount < d.invoice_amount ∧ 0 < d.debt
        ∧ d.debt = d.invoice_amount - d.paid_amount := by
  intro invs m u st h
  exact foldlM_option_inv (processInvoice_preserves_pos m) h (by simp)

/-- C10 witness: the invariant evaluated on a concrete run that emits
one debtor. -/
theorem reconcile_debt_pos_witness :
    (0 : ℤ) < 100 ∧ (0 : ℤ) < 100 ∧ (100 : ℤ) = 100 - 0 :=
  reconcile_debt_pos [⟨1, "Mart Tamm", "d1", "d2", 100⟩] (fun _ => 0) []
    ⟨[], [⟨"Mart Tamm", 1, "d1", 100, 0, 100⟩]⟩ (by decide)
    ⟨"Mart Tamm", 1, "d1", 100, 0, 100⟩ (by decide)

/-! ### Claim C8 — at-most-once consumption of an unmatched payment -/

/-- C8: with a single unmatched payment whose name variants overlap the
client's and whose amount equals the (unpaid, positive) invoice amount,
the first matching invoice consumes the entry — it is removed from the
unmatched list and that invoice is excluded from the debtor list — and a
second later invoice with the same name and amount profile is *not* also
cleared by the already-consumed payment: it is emitted as a debtor. -/
theorem fallback_consumes_entry_once :
    ∀ (c pn d₁ d₂ t₁ t₂ pd : String) (n₁ n₂ : Nat) (amt : ℤ)
      (vc vp : Finset String),
      normalize_name c = some vc → normalize_name pn = some vp →
      0 < (vc ∩ vp).card → 0 < amt →
      reconcile [⟨n₁, c, d₁, t₁, amt⟩, ⟨n₂, c, d₂, t₂, amt⟩]
          (fun _ => 0) [⟨pn, amt, pd⟩]
        = some ⟨[], [⟨c, n₂, d₂, amt, 0, amt⟩]⟩ := by
  intro c pn d₁ d₂ t₁ t₂ pd n₁ n₂ amt vc vp hc hp hcard hamt
  have hscan : scanUnmatched vc amt [⟨pn, amt, pd⟩] = some (some ⟨pn, amt, pd⟩) := by
    simp only [scanUnmatched, hp]
    simp [hcard]
  have h₁ : processInvoice (fun _ => 0) ⟨[⟨pn, amt, pd⟩], []⟩ ⟨n₁, c, d₁, t₁, amt⟩
      = some ⟨[], []⟩ := by
    simp only [processInvoice, hc, hscan]
    rw [if_pos hamt]
    simp [List.erase_cons_head]
  have h₂ : processInvoice (fun _ => 0) ⟨[], []⟩ ⟨n₂, c, d₂, t₂, amt⟩
      = some ⟨[], [⟨c, n₂, d₂, amt, 0, amt⟩]⟩ := by
    simp only [processInvoice, hc, scanUnmatched]
    rw [if_pos hamt]
    simp [sub_zero]
  unfold reconcile
  rw [List.foldlM_cons, h₁]
  simp only [Option.bind_eq_bind, Option.some_bind, List.foldlM_cons, h₂,
    List.foldlM_nil]
  rfl

/-- C8 witness: the §8 profile — client "Mari Maasikas", one unmatched
payment from "Maasikas Mari" of 50, two invoices of 50. -/
theorem fallback_consumes_entry_once_witness :
    reconcile [⟨11, "Mari Maasikas", "d1", "t1", 50⟩,
               ⟨12, "Mari Maasikas", "d2", "t2", 50⟩]
        (fun _ => 0) [⟨"Maasikas Mari", 50, "p1"⟩]
      = some ⟨[], [⟨"Mari Maasikas", 12, "d2", 50, 0, 50⟩]⟩ :=
  fallback_consumes_entry_once "Mari Maasikas" "Maasikas Mari" "d1" "d2" "t1" "t2"
    "p1" 11 12 50 {"Mari Maasikas", "Maasikas Mari"} {"Maasikas Mari", "Mari Maasikas"}
    (by decide) (by decide) (by decide) (by decide)

/-! ### Claim C1 — the reconciler refines its specification -/

/-- Wherever `normalize_name` succeeds, the spec's first-comma
normalizer agrees with it (one comma: the two splits coincide; no
comma: the branches are identical). -/
theorem specNormalize_eq_of_normalize {s : String} {v : Finset String}
    (h : normalize_name s = some v) : specNormalize s = v := by
  unfold normalize_name at h
  unfold specNormalize
  by_cases hc : ',' ∈ s.data
  · rw [if_pos hc] at h ⊢
    rcases hs : pySplit ',' s.data with _ | ⟨l₁, _ | ⟨l₂, _ | _⟩⟩ <;> rw [hs] at h
    · exact absurd hs (pySplit_ne_nil ',' s.data)
    · exact absurd h (by simp)
    · obtain rfl := Option.some.inj h
      simp [List.intercalate, List.intersperse]
    · exact absurd h (by simp)
  · rw [if_neg hc] at h ⊢
    rcases hs : pySplitWs s.data with _ | ⟨t₁, _ | ⟨t₂, _ | _⟩⟩ <;> rw [hs] at h <;>
      exact Option.some.inj h

/-- Wherever every stored name normalizes, the code's fallback scan
computes exactly the spec's fallback scan. -/
theorem scanUnmatched_eq_spec (vars : Finset String) (amt : ℤ) :
    ∀ (u : List UnmatchedPayment), (∀ p ∈ u, (normalize_name p.name).isSome) →
      scanUnmatched vars amt u = some (specScan vars amt u) := by
  intro u
  induction u with
  | nil => intro _; rfl
  | cons p rest ih =>
    intro hu
    obtain ⟨vp, hvp⟩ := Option.isSome_iff_exists.mp (hu p (List.mem_cons_self p rest))
    have hsp : specNormalize p.name = vp := specNormalize_eq_of_normalize hvp
    simp only [scanUnmatched, specScan, hvp, hsp, Finset.card_pos]
    by_cases hcond : (vars ∩ vp).Nonempty ∧ p.amount = amt
    · rw [if_pos hcond, if_pos hcond]
    · rw [if_neg hcond, if_neg hcond]
      exact ih fun q hq => hu q (List.mem_cons_of_mem p hq)

/-- The spec step never adds entries to the unmatched list. -/
theorem specStep_fst_subset (m : String × Nat → ℤ) (u : List UnmatchedPayment)
    (d : List Debtor) (inv : InvoiceRecord) :
    ∀ p ∈ (specStep m (u, d) inv).1, p ∈ u := by
  intro p hp
  simp only [specStep] at hp
  split at hp
  · exact hp
  · split at hp
    · simp only at hp
      exact List.erase_subset _ _ hp
    · simpa using hp

/-- One invoice step of the code equals one step of the spec, provided
the client name and all stored names normalize. -/
theorem processInvoice_eq_spec (m : String × Nat → ℤ) (st : RecState)
    (inv : InvoiceRecord) (hinv : (normalize_name inv.klient).isSome)
    (hu : ∀ p ∈ st.unmatched, (normalize_name p.name).isSome) :
    processInvoice m st inv
      = some ⟨(specStep m (st.unmatched, st.debtors) inv).1,
              (specStep m (st.unmatched, st.debtors) inv).2⟩ := by
  obtain ⟨vars, hv⟩ := Option.isSome_iff_exists.mp hinv
  have hsv : specNormalize inv.klient = vars := specNormalize_eq_of_normalize hv
  simp only [processInvoice, specStep, hv, hsv,
    scanUnmatched_eq_spec vars inv.summa st.unmatched hu]
  by_cases hlt : m (inv.klient, inv.number) < inv.summa
  · rw [if_pos hlt, if_neg (not_le.mpr hlt)]
    cases hres : specScan vars inv.summa st.unmatched with
    | some mp => rfl
    | none => rfl
  · rw [if_neg hlt, if_pos (not_lt.mp hlt)]

/-- The invoice loop of the code equals the spec's fold, provided every
name in sight normalizes. -/
theorem reconcile_foldlM_eq_spec (m : String × Nat → ℤ) :
    ∀ (invs : List InvoiceRecord) (st : RecState),
      (∀ inv ∈ invs, (normalize_name inv.klient).isSome) →
      (∀ p ∈ st.unmatched, (normalize_name p.name).isSome) →
      invs.foldlM (processInvoice m) st
        = some ⟨(invs.foldl (specStep m) (st.unmatched, st.debtors)).1,
                (invs.foldl (specStep m) (st.unmatched, st.debtors)).2⟩ := by
  intro invs
  induction invs with
  | nil => intro st _ _; rfl
  | cons inv rest ih =>
    intro st hinv hu
    rw [List.foldlM_cons,
        processInvoice_eq_spec m st inv (hinv inv (List.mem_cons_self inv rest)) hu]
    simp only [Option.bind_eq_bind, Option.some_bind]
    have hu' : ∀ p ∈ (specStep m (st.unmatched, st.debtors) inv).1,
        (normalize_name p.name).isSome :=
      fun p hp => hu p (specStep_fst_subset m st.unmatched st.debtors inv p hp)
    rw [ih ⟨(specStep m (st.unmatched, st.debtors) inv).1,
           (specStep m (st.unmatched, st.debtors) inv).2⟩
         (fun i hi => hinv i (List.mem_cons_of_mem inv hi)) hu']
    rw [List.foldl_cons]

/-- C1 counterexample: an underpaid invoice whose client name holds two
commas.  The claim says a Debtor with debt = 10 is emitted (as the
spec's transcription indeed computes); the code instead raises
`ValueError` inside the fallback normalization, producing no debtor
list at all. -/
theorem reconcile_multi_comma_diverges :
    reconcile [⟨1, "a,b,c", "d1", "t1", 10⟩] (fun _ => 0) [] = none
    ∧ (reconcileSpec [⟨1, "a,b,c", "d1", "t1", 10⟩] (fun _ => 0) []).2
        = [⟨"a,b,c", 1, "d1", 10, 0, 10⟩] := by decide

/-- C1 (amended): provided every invoice client name and every unmatched
entry name normalizes without error (at most one comma), the reconciler
behaves exactly as the claim describes, invoice by invoice in input
order: paid is looked up under the raw (client name, number) key with
default 0; an invoice with paid ≥ amount is skipped; otherwise the
unmatched list is scanned in its current order for the first entry with
a name-variant intersection and exactly the invoice's amount — found:
the entry is removed and no debtor emitted; not found: a Debtor with
debt = amount − paid is emitted.  `reconcileSpec` transcribes that
description. -/
theorem reconcile_implements_spec :
    ∀ (invoices : List InvoiceRecord) (m : String × Nat → ℤ)
      (u : List UnmatchedPayment),
      (∀ inv ∈ invoices, (normalize_name inv.klient).isSome) →
      (∀ p ∈ u, (normalize_name p.name).isSome) →
      reconcile invoices m u
        = some ⟨(reconcileSpec invoices m u).1, (reconcileSpec invoices m u).2⟩ := by
  intro invoices m u hinv hu
  unfold reconcile reconcileSpec
  exact reconcile_foldlM_eq_spec m invoices ⟨u, []⟩ hinv hu

/-- C1 witness: the refinement applied to the §8 end-to-end scenario. -/
theorem reconcile_implements_spec_witness :
    reconcile [⟨10, "Mart Tamm", "d1", "t1", 100⟩] (fun _ => 0)
        [⟨"Tamm Mart", 100, "p1"⟩]
      = some ⟨(reconcileSpec [⟨10, "Mart Tamm", "d1", "t1", 100⟩] (fun _ => 0)
                [⟨"Tamm Mart", 100, "p1"⟩]).1,
              (reconcileSpec [⟨10, "Mart Tamm", "d1", "t1", 100⟩] (fun _ => 0)
                [⟨"Tamm Mart", 100, "p1"⟩]).2⟩ :=
  reconcile_implements_spec [⟨10, "Mart Tamm", "d1", "t1", 100⟩] (fun _ => 0)
    [⟨"Tamm Mart", 100, "p1"⟩] (by decide) (by decide)
